import Mathlib

/-!
# The filter / sort / paginate / aggregate pipeline of `src/script.js`

A shallow embedding of the dashboard script.  JavaScript strings are modelled
as lists of Unicode scalar values, a record as a structure whose `country` and
`industry` may be missing (`undefined`), and the script's global variables and
the DOM cells it reads and writes as one explicit `State` value.

Platform functions that the script calls but does not define are modelled as
follows.

* `String.prototype.toLowerCase` is a parameter `toLowerCase : Str → Str` of
  every definition that lowercases; no property of it is assumed.  Closed
  evaluations instantiate it with `asciiLower`, which agrees with it on ASCII.
* `String.prototype.trim`, `String.prototype.includes`, `Array.prototype.slice`,
  `Array.prototype.sort`, the relational operator `<` and `Set` are written out.
* `numberOfEmployees` is a non-negative integer inside the range in which
  JavaScript numbers are exact, so `+` is addition on `Nat` and the decimal
  text of a number is `Nat.toDigits 10`.
-/

namespace Dashboard

/-! ## Strings -/

/-- A JavaScript string, as the list of its Unicode scalar values. -/
abbrev Str := List Char

/-- ASCII lowercasing, the instance of `toLowerCase` used in closed evaluations. -/
def asciiLower (s : Str) : Str := s.map Char.toLower

/-- `s.includes(t)`: does `t` occur in `s` as a contiguous substring. -/
def includes : Str → Str → Bool
  | [], t => t.isEmpty
  | c :: s, t => t.isPrefixOf (c :: s) || includes s t

/-- The code points removed by `String.prototype.trim`: ECMAScript `WhiteSpace`
and `LineTerminator`. -/
def isTrimChar (c : Char) : Bool :=
  let n := c.toNat
  n = 0x09 || n = 0x0A || n = 0x0B || n = 0x0C || n = 0x0D || n = 0x20 || n = 0xA0 ||
  n = 0x1680 || (0x2000 ≤ n && n ≤ 0x200A) || n = 0x2028 || n = 0x2029 || n = 0x202F ||
  n = 0x205F || n = 0x3000 || n = 0xFEFF

/-- `s.trim()`. -/
def trim (s : Str) : Str :=
  ((s.dropWhile isTrimChar).reverse.dropWhile isTrimChar).reverse

/-- `Number.prototype.toString` on a non-negative integer. -/
def numberToString (n : Nat) : Str := Nat.toDigits 10 n

/-- What a template literal substitutes for a string field that may be
missing: the string itself, or the text `undefined`. -/
def interpolate : Option Str → Str
  | some s => s
  | none => "undefined".toList

/-! ## Records -/

/-- One company entry of the fetched collection.  `name` is a string (the
script calls `item.name.trim()` unguarded) and `numberOfEmployees` a
non-negative integer; `country` and `industry` are strings or missing. -/
structure Record where
  name : Str
  country : Option Str
  industry : Option Str
  numberOfEmployees : Nat
deriving DecidableEq, Repr

/-- The record used in the closed evaluations of the filter. -/
def acme : Record :=
  { name := "Acme".toList, country := some "USA".toList, industry := some "Tech".toList,
    numberOfEmployees := 5 }

/-- A record whose country is missing. -/
def acmeNoCountry : Record :=
  { name := "Acme".toList, country := none, industry := some "Tech".toList,
    numberOfEmployees := 5 }

/-- The record `acmeNoCountry` with its country set to the empty string. -/
def acmeEmptyCountry : Record :=
  { name := "Acme".toList, country := some [], industry := some "Tech".toList,
    numberOfEmployees := 5 }

/-! ## `applyFilters`: the filter step (lines 96-114) -/

/-- `selected.includes(v)` for an array of strings and a possibly missing `v`. -/
def arrayIncludes (selected : List Str) (v : Option Str) : Bool :=
  match v with
  | some s => selected.contains s
  | none => false

/-- The multi-line template literal of lines 104-109, before lowercasing. -/
def templateText (name country industry employees : Str) : Str :=
  "\n      ".toList ++ name ++ "\n      ".toList ++ country ++ "\n      ".toList ++
    industry ++ "\n      ".toList ++ employees ++ "\n    ".toList

/-- `combinedText` of line 104. -/
def combinedText (toLowerCase : Str → Str) (item : Record) : Str :=
  toLowerCase (templateText item.name (interpolate item.country)
    (interpolate item.industry) (numberToString item.numberOfEmployees))

/-- `matchesCountry` of line 101. -/
def matchesCountry (selectedCountries : List Str) (item : Record) : Bool :=
  if selectedCountries.length ≠ 0 then arrayIncludes selectedCountries item.country else true

/-- `matchesIndustry` of line 102. -/
def matchesIndustry (selectedIndustries : List Str) (item : Record) : Bool :=
  if selectedIndustries.length ≠ 0 then arrayIncludes selectedIndustries item.industry else true

/-- `matchesSearch` of line 111; `searchTerm` is the already lowercased term. -/
def matchesSearch (toLowerCase : Str → Str) (searchTerm : Str) (item : Record) : Bool :=
  includes (combinedText toLowerCase item) searchTerm

/-- The value assigned to `filteredData` on line 100, from `allData`, the two
lists of checked values and the raw content of the search box. -/
def filterData (toLowerCase : Str → Str) (allData : List Record)
    (selectedCountries selectedIndustries : List Str) (searchValue : Str) : List Record :=
  let searchTerm := toLowerCase searchValue
  allData.filter fun item =>
    matchesCountry selectedCountries item && matchesIndustry selectedIndustries item &&
      matchesSearch toLowerCase searchTerm item

/-! ## The aggregator: `deduplicateDataByName` and `renderStats` (lines 245-293) -/

/-- `nameKey` of line 249. -/
def nameKey (toLowerCase : Str → Str) (item : Record) : Str :=
  toLowerCase (trim item.name)

/-- The filter callback of `deduplicateDataByName`, threaded through the
records together with the `Set` `seenNames` it reads and extends. -/
def deduplicateLoop (toLowerCase : Str → Str) (seenNames : List Str) :
    List Record → List Record
  | [] => []
  | item :: rest =>
    if seenNames.contains (nameKey toLowerCase item) then
      deduplicateLoop toLowerCase seenNames rest
    else
      item :: deduplicateLoop toLowerCase (nameKey toLowerCase item :: seenNames) rest

/-- `deduplicateDataByName(data)`. -/
def deduplicateDataByName (toLowerCase : Str → Str) (data : List Record) : List Record :=
  deduplicateLoop toLowerCase [] data

/-- `new Set(values)`: the members in insertion order, each value once. -/
def newSet {α : Type} [DecidableEq α] (values : List α) : List α :=
  values.foldl (fun set v => if set.contains v then set else set ++ [v]) []

/-- `field?.trim().toLowerCase()`: `undefined` when the field is missing. -/
def normalizeField (toLowerCase : Str → Str) (field : Option Str) : Option Str :=
  field.map fun s => toLowerCase (trim s)

/-- `Boolean(v)` for a string or `undefined`. -/
def truthy : Option Str → Bool
  | some s => !s.isEmpty
  | none => false

/-- `uniqueCountries` of line 262. -/
def uniqueCountries (toLowerCase : Str → Str) (filteredData : List Record) :
    List (Option Str) :=
  newSet ((filteredData.map fun item => normalizeField toLowerCase item.country).filter truthy)

/-- `uniqueIndustries` of line 269. -/
def uniqueIndustries (toLowerCase : Str → Str) (filteredData : List Record) :
    List (Option Str) :=
  newSet ((filteredData.map fun item => normalizeField toLowerCase item.industry).filter
    fun ind => truthy ind && ind != some "n/a".toList)

/-- `totalEmployees` of line 276. -/
def totalEmployees (filteredData : List Record) : Nat :=
  filteredData.foldl (fun sum item => sum + item.numberOfEmployees) 0

/-- The four numbers `renderStats` hands to `animateCount`. -/
structure Stats where
  statTotalCompanies : Nat
  statTotalEmployees : Nat
  statCountries : Nat
  statIndustries : Nat
deriving DecidableEq, Repr

/-- `renderStats()`, as the statistics it computes from `filteredData`. -/
def renderStats (toLowerCase : Str → Str) (filteredData : List Record) : Stats :=
  { statTotalCompanies := (deduplicateDataByName toLowerCase filteredData).length
    statTotalEmployees := totalEmployees filteredData
    statCountries := (uniqueCountries toLowerCase filteredData).length
    statIndustries := (uniqueIndustries toLowerCase filteredData).length }

/-- A record with the given industry and nothing else of interest. -/
def withIndustry (industry : String) : Record :=
  { name := "x".toList, country := none, industry := some industry.toList,
    numberOfEmployees := 1 }

/-! ## `applySorting` (lines 130-139) -/

/-- The column a header's `data-sort` attribute names.  `unknown` stands for
any attribute value that is not a property of the records. -/
inductive Field where
  | name
  | country
  | industry
  | numberOfEmployees
  | unknown
deriving DecidableEq, Repr

/-- The two values of `currentSort.order`. -/
inductive SortOrder where
  | asc
  | desc
deriving DecidableEq, Repr

/-- The global `currentSort`; `key = none` is a missing (falsy) key. -/
structure CurrentSort where
  key : Option Field
  order : SortOrder
deriving DecidableEq, Repr

/-- What `item[key]` evaluates to. -/
inductive Value where
  | undefined
  | string (s : Str)
  | number (n : Nat)
deriving DecidableEq, Repr

/-- `item[key]`. -/
def getField (item : Record) : Field → Value
  | .name => .string item.name
  | .country => match item.country with
    | some s => .string s
    | none => .undefined
  | .industry => match item.industry with
    | some s => .string s
    | none => .undefined
  | .numberOfEmployees => .number item.numberOfEmployees
  | .unknown => .undefined

/-- The UTF-16 code units of one scalar value. -/
def utf16 (c : Char) : List Nat :=
  if c.toNat < 0x10000 then [c.toNat]
  else [0xD800 + (c.toNat - 0x10000) / 0x400, 0xDC00 + (c.toNat - 0x10000) % 0x400]

/-- The UTF-16 code units of a string. -/
def codeUnits (s : Str) : List Nat := s.flatMap utf16

/-- `a < b` on two strings: lexicographic comparison of their code units. -/
def stringLess (a b : Str) : Bool := decide (codeUnits a < codeUnits b)

/-- `x < y` on two values read from the same field of two records.  A
comparison with `undefined` converts it to `NaN` and is false. -/
def valueLess : Value → Value → Bool
  | .string a, .string b => stringLess a b
  | .number a, .number b => decide (a < b)
  | _, _ => false

/-- The comparator of lines 133-137; `a[key] > b[key]` is `b[key] < a[key]`. -/
def comparator (key : Field) (order : SortOrder) (a b : Record) : Int :=
  if valueLess (getField a key) (getField b key) then (if order = .asc then -1 else 1)
  else if valueLess (getField b key) (getField a key) then (if order = .asc then 1 else -1)
  else 0

/-- Insertion of `x` in front of the first element it does not have to follow. -/
def insertOrdered {α : Type} (comparefn : α → α → Int) (x : α) : List α → List α
  | [] => [x]
  | y :: ys =>
    if comparefn x y ≤ 0 then x :: y :: ys else y :: insertOrdered comparefn x ys

/-- `array.sort(comparefn)`.  ECMAScript requires the sort to be stable, and
for a consistent comparator that fixes the result; it is computed here by a
stable insertion sort. -/
def arraySort {α : Type} (comparefn : α → α → Int) : List α → List α
  | [] => []
  | x :: xs => insertOrdered comparefn x (arraySort comparefn xs)

/-- `applySorting()`, as the new value of `filteredData`. -/
def applySorting (currentSort : CurrentSort) (filteredData : List Record) : List Record :=
  match currentSort.key with
  | some key => arraySort (comparator key currentSort.order) filteredData
  | none => filteredData

/-- The order of two values of one field: code-unit lexicographic order on
strings, numeric order on numbers. -/
def ValueLE : Value → Value → Prop
  | .string a, .string b => codeUnits a ≤ codeUnits b
  | .number a, .number b => a ≤ b
  | _, _ => False

/-- A sequence is ordered by `key`: non-decreasing under `asc`, non-increasing
under `desc`. -/
def OrderedBy (key : Field) (order : SortOrder) (l : List Record) : Prop :=
  match order with
  | .asc => l.Pairwise fun a b => ValueLE (getField a key) (getField b key)
  | .desc => l.Pairwise fun a b => ValueLE (getField b key) (getField a key)

/-! ## `renderTable` (lines 141-163) -/

/-- The constant `rowsPerPage`. -/
def rowsPerPage : Nat := 10

/-- The index `Array.prototype.slice` derives from an argument: counted from
the end when negative, and clamped to the length. -/
def relativeIndex (len : Nat) (i : Int) : Nat :=
  if i < 0 then (len + i).toNat else min i.toNat len

/-- `array.slice(start, end)`. -/
def slice {α : Type} (array : List α) (start stop : Int) : List α :=
  let k := relativeIndex array.length start
  let final := relativeIndex array.length stop
  (array.drop k).take (final - k)

/-- `Math.ceil(length / rowsPerPage)`. -/
def totalPages (length : Nat) : Nat := (length + (rowsPerPage - 1)) / rowsPerPage

/-- What `renderTable` puts on the page. -/
structure Table where
  pageData : List Record
  pageNumber : Int
  pageCount : Nat
  prevDisabled : Bool
  nextDisabled : Bool
deriving DecidableEq, Repr

/-- `renderTable()`. -/
def renderTable (currentPage : Int) (filteredData : List Record) : Table :=
  let start := (currentPage - 1) * rowsPerPage
  let stop := start + rowsPerPage
  { pageData := slice filteredData start stop
    pageNumber := currentPage
    pageCount := totalPages filteredData.length
    prevDisabled := decide (currentPage = 1)
    nextDisabled := decide (stop ≥ filteredData.length) }

/-- The paginator's `hasNext`: the next button is enabled. -/
def hasNext (currentPage : Int) (filteredData : List Record) : Bool :=
  !(renderTable currentPage filteredData).nextDisabled

/-! ## `renderChart`: `employeesPerIndustry` (lines 166-170) -/

/-- A value read from a property of the object `employeesPerIndustry`. -/
inductive Slot where
  | number (n : Nat)
  | string (s : Str)
  | object (text : Str)
deriving DecidableEq, Repr

/-- The properties an object literal inherits from `Object.prototype`, each
with the text that `+` converts its value to (the text of a built-in function
as V8 prints it). -/
def objectPrototype : List (Str × Str) :=
  [("constructor".toList, "function Object() \x7b [native code] \x7d".toList),
   ("__defineGetter__".toList, "function __defineGetter__() \x7b [native code] \x7d".toList),
   ("__defineSetter__".toList, "function __defineSetter__() \x7b [native code] \x7d".toList),
   ("hasOwnProperty".toList, "function hasOwnProperty() \x7b [native code] \x7d".toList),
   ("__lookupGetter__".toList, "function __lookupGetter__() \x7b [native code] \x7d".toList),
   ("__lookupSetter__".toList, "function __lookupSetter__() \x7b [native code] \x7d".toList),
   ("isPrototypeOf".toList, "function isPrototypeOf() \x7b [native code] \x7d".toList),
   ("propertyIsEnumerable".toList,
      "function propertyIsEnumerable() \x7b [native code] \x7d".toList),
   ("toString".toList, "function toString() \x7b [native code] \x7d".toList),
   ("valueOf".toList, "function valueOf() \x7b [native code] \x7d".toList),
   ("__proto__".toList, "[object Object]".toList),
   ("toLocaleString".toList, "function toLocaleString() \x7b [native code] \x7d".toList)]

/-- `object[key]`: the own property if there is one, else the inherited one,
else `undefined`. -/
def getProperty (object : List (Str × Slot)) (key : Str) : Option Slot :=
  match object.lookup key with
  | some v => some v
  | none => (objectPrototype.lookup key).map Slot.object

/-- `(current || 0) + n`: addition on a number, concatenation on the rest. -/
def orZeroPlus (current : Option Slot) (n : Nat) : Slot :=
  match current with
  | none => .number (0 + n)
  | some (.number m) => if m = 0 then .number (0 + n) else .number (m + n)
  | some (.string s) => if s.isEmpty then .number (0 + n) else .string (s ++ numberToString n)
  | some (.object text) => .string (text ++ numberToString n)

/-- `object[key] = value`.  The inherited setter of `__proto__` ignores a value
that is not an object; any other key becomes or stays an own property. -/
def setProperty (object : List (Str × Slot)) (key : Str) (value : Slot) : List (Str × Slot) :=
  if key = "__proto__".toList then object
  else if (object.lookup key).isSome then
    object.map fun p => if p.1 = key then (key, value) else p
  else object ++ [(key, value)]

/-- `employeesPerIndustry` after the `forEach` of line 168; a missing industry
is the property key `undefined`. -/
def employeesPerIndustry (filteredData : List Record) : List (Str × Slot) :=
  filteredData.foldl (fun object item =>
    setProperty object (interpolate item.industry)
      (orZeroPlus (getProperty object (interpolate item.industry)) item.numberOfEmployees)) []

/-! ## The page state, `updateURLParams` and `setFiltersFromURL` (lines 348-377) -/

/-- One `<input type="checkbox">` of a filter group. -/
structure Checkbox where
  value : Str
  checked : Bool
deriving DecidableEq, Repr

/-- One `<th>` of the table, with its `data-sort` and `data-order` attributes;
`dataOrder = none` is a missing attribute or one that is neither `asc` nor
`desc`. -/
structure Header where
  dataSort : Option Field
  dataOrder : Option SortOrder
deriving DecidableEq, Repr

/-- The script's global variables and the DOM cells it reads and writes.
`url` is the list of name-value pairs of `location.search`: `URLSearchParams`
serialises a list of pairs of strings to a query string, and parsing that query
string gives the list back. -/
structure State where
  allData : List Record
  filteredData : List Record
  currentPage : Int
  currentSort : CurrentSort
  countryFilter : List Checkbox
  industryFilter : List Checkbox
  searchInput : Str
  headers : List Header
  url : List (Str × Str)
deriving DecidableEq, Repr

/-- `getCheckedValues(containerId)` on the checkboxes of the container. -/
def getCheckedValues (group : List Checkbox) : List Str :=
  (group.filter fun cb => cb.checked).map fun cb => cb.value

/-- `params.set(name, value)`: overwrite the first pair called `name` and drop
the others, or append a new pair. -/
def paramsSet : List (Str × Str) → Str → Str → List (Str × Str)
  | [], name, value => [(name, value)]
  | p :: rest, name, value =>
    if p.1 = name then (name, value) :: rest.filter fun q => q.1 ≠ name
    else p :: paramsSet rest name value

/-- `params.getAll(name)`. -/
def paramsGetAll (params : List (Str × Str)) (name : Str) : List Str :=
  (params.filter fun p => p.1 = name).map fun p => p.2

/-- `params.get(name)`. -/
def paramsGet (params : List (Str × Str)) (name : Str) : Option Str :=
  (params.find? fun p => p.1 = name).map fun p => p.2

/-- `updateURLParams()`. -/
def updateURLParams (s : State) : State :=
  let params := (getCheckedValues s.countryFilter).map fun val => ("country".toList, val)
  let params := params ++ (getCheckedValues s.industryFilter).map fun val => ("industry".toList, val)
  let search := trim s.searchInput
  let params := if !search.isEmpty then paramsSet params "search".toList search else params
  { s with url := params }

/-- A value can be spliced between the double quotes of the selector
`input[value="..."]` and still be read back as itself: it has no double quote,
backslash, line break, form feed or null character. -/
def cssStringSafe (val : Str) : Bool :=
  val.all fun c =>
    c.toNat ≠ 0x22 && c.toNat ≠ 0x5C && c.toNat ≠ 0x0A && c.toNat ≠ 0x0D && c.toNat ≠ 0x0C &&
      c.toNat ≠ 0x00

/-- The body of `values.forEach` on line 368 for a value that is
`cssStringSafe`: the first input of the group whose value is `val`, if there is
one, becomes checked. -/
def checkFirst (val : Str) : List Checkbox → List Checkbox
  | [] => []
  | cb :: rest =>
    if cb.value = val then { cb with checked := true } :: rest else cb :: checkFirst val rest

/-- `values.forEach(...)` of line 368.  The result is `none` when some value is
not `cssStringSafe`: the selector text built from it is then not the intended
selector, and what `querySelector` does with it is not modelled. -/
def checkAll (group : List Checkbox) : List Str → Option (List Checkbox)
  | [] => some group
  | val :: values =>
    if cssStringSafe val then checkAll (checkFirst val group) values else none

/-- `setFiltersFromURL()`. -/
def setFiltersFromURL (s : State) : Option State :=
  match checkAll s.countryFilter (paramsGetAll s.url "country".toList) with
  | none => none
  | some countryFilter =>
    match checkAll s.industryFilter (paramsGetAll s.url "industry".toList) with
    | none => none
    | some industryFilter =>
      let searchInput :=
        match paramsGet s.url "search".toList with
        | some searchVal => if !searchVal.isEmpty then searchVal else s.searchInput
        | none => s.searchInput
      some { s with countryFilter := countryFilter, industryFilter := industryFilter,
                    searchInput := searchInput }

/-- A page whose checkboxes are all unchecked and whose search box is empty. -/
def cleared (s : State) : State :=
  { s with countryFilter := s.countryFilter.map fun cb => { cb with checked := false }
           industryFilter := s.industryFilter.map fun cb => { cb with checked := false }
           searchInput := [] }

/-! ## The event handlers (lines 93-120 and 334-410) -/

/-- `applyFilters()`. -/
def applyFilters (toLowerCase : Str → Str) (s : State) : State :=
  let s := updateURLParams s
  let selectedCountries := getCheckedValues s.countryFilter
  let selectedIndustries := getCheckedValues s.industryFilter
  let filteredData :=
    filterData toLowerCase s.allData selectedCountries selectedIndustries s.searchInput
  { s with filteredData := applySorting s.currentSort filteredData, currentPage := 1 }

/-- The `change` and `input` listeners of lines 335-337: the user has left the
checkboxes and the search box in the given condition, and `applyFilters` runs. -/
def filterChange (toLowerCase : Str → Str) (countryFilter industryFilter : List Checkbox)
    (searchInput : Str) (s : State) : State :=
  applyFilters toLowerCase
    { s with countryFilter := countryFilter, industryFilter := industryFilter,
             searchInput := searchInput }

/-- The click listener of the reset button (lines 341-345). -/
def resetFilters (toLowerCase : Str → Str) (s : State) : State :=
  applyFilters toLowerCase (cleared s)

/-- The click listener of the `i`-th table header (lines 382-395). -/
def headerClick (i : Nat) (s : State) : State :=
  match s.headers.get? i with
  | none => s
  | some header =>
    let order := if header.dataOrder = some .asc then SortOrder.desc else SortOrder.asc
    let currentSort : CurrentSort := { key := header.dataSort, order := order }
    { s with headers := s.headers.set i { header with dataOrder := some order }
             currentSort := currentSort
             filteredData := applySorting currentSort s.filteredData }

/-- The click listener of `prevPageBtn` (lines 398-403). -/
def prevPage (s : State) : State :=
  if s.currentPage > 1 then { s with currentPage := s.currentPage - 1 } else s

/-- The click listener of `nextPageBtn` (lines 405-410). -/
def nextPage (s : State) : State :=
  if s.currentPage * rowsPerPage < s.filteredData.length then
    { s with currentPage := s.currentPage + 1 }
  else s

/-- The first half of `fetchData`: the fetched records replace `allData` and
`populateFilters` rebuilds the two checkbox groups. -/
def dataLoaded (data : List Record) (countryFilter industryFilter : List Checkbox)
    (s : State) : State :=
  { s with allData := data, countryFilter := countryFilter, industryFilter := industryFilter }

/-- The page as the script leaves it before any event. -/
def initialState (headers : List Header) (countryFilter industryFilter : List Checkbox)
    (searchInput : Str) (url : List (Str × Str)) : State :=
  { allData := [], filteredData := [], currentPage := 1
    currentSort := { key := some .name, order := .asc }
    countryFilter := countryFilter, industryFilter := industryFilter
    searchInput := searchInput, headers := headers, url := url }

/-- The states the page can be in: the initial one, and the result of any
event on a state it can be in. -/
inductive Reachable (toLowerCase : Str → Str) : State → Prop where
  | init (headers countryFilter industryFilter searchInput url) :
      Reachable toLowerCase (initialState headers countryFilter industryFilter searchInput url)
  | dataLoaded (data countryFilter industryFilter) {s} :
      Reachable toLowerCase s →
      Reachable toLowerCase (Dashboard.dataLoaded data countryFilter industryFilter s)
  | filterChange (countryFilter industryFilter searchInput) {s} :
      Reachable toLowerCase s →
      Reachable toLowerCase
        (Dashboard.filterChange toLowerCase countryFilter industryFilter searchInput s)
  | resetFilters {s} :
      Reachable toLowerCase s → Reachable toLowerCase (Dashboard.resetFilters toLowerCase s)
  | headerClick (i) {s} :
      Reachable toLowerCase s → Reachable toLowerCase (Dashboard.headerClick i s)
  | prevPage {s} : Reachable toLowerCase s → Reachable toLowerCase (Dashboard.prevPage s)
  | nextPage {s} : Reachable toLowerCase s → Reachable toLowerCase (Dashboard.nextPage s)

/-! ## Specification-side definitions and sample inputs -/

/-- The page shown is within range: `currentPage` is at least 1, and it is 1
or its first row exists. -/
def PageInRange (s : State) : Prop :=
  1 ≤ s.currentPage ∧
    (s.currentPage = 1 ∨ (s.currentPage - 1) * rowsPerPage < s.filteredData.length)

/-- A store of eleven records, enough for a second page. -/
def elevenRecords : List Record := List.replicate 11 acme

/-- A page on which the eleven records were loaded, the filters applied and the
next-page button clicked. -/
def secondPageState : State :=
  nextPage (filterChange asciiLower [] [] []
    (dataLoaded elevenRecords [] [] (initialState [] [] [] [] [])))

/-- A page with the countries UK and USA checked, Canada unchecked, and the
search box holding `foo` after a leading space. -/
def sharedViewState : State :=
  { allData := [], filteredData := [], currentPage := 1
    currentSort := { key := some .name, order := .asc }
    countryFilter := [⟨"Canada".toList, false⟩, ⟨"UK".toList, true⟩, ⟨"USA".toList, true⟩]
    industryFilter := [⟨"Tech".toList, false⟩]
    searchInput := " foo".toList, headers := [], url := [] }

/-- A record with the given name, country and head count, in industry Tech. -/
def company (name country : String) (employees : Nat) : Record :=
  { name := name.toList, country := some country.toList, industry := some "Tech".toList,
    numberOfEmployees := employees }

/-- Four companies, two of them in the same country. -/
def fourCompanies : List Record :=
  [company "Birch" "UK" 7, company "Acme" "USA" 5, company "Cedar" "UK" 3,
   company "Dune" "Chile" 9]

/-- Two records of the industry `constructor`, with 1 and 2 employees. -/
def constructorOne : Record :=
  { name := "One".toList, country := some "UK".toList, industry := some "constructor".toList,
    numberOfEmployees := 1 }

/-- The second record of the industry `constructor`. -/
def constructorTwo : Record :=
  { name := "Two".toList, country := some "UK".toList, industry := some "constructor".toList,
    numberOfEmployees := 2 }

/-- The sum of `numberOfEmployees` over the records whose industry, as a
property key, is `key`. -/
def industryTotal (key : Str) (l : List Record) : Nat :=
  ((l.filter fun r => interpolate r.industry = key).map fun r => r.numberOfEmployees).sum

/-- The filter predicate as the specification words it: plain concatenation of
the four fields, a missing field counting as the empty string. -/
def ClaimedPasses (toLowerCase : Str → Str) (selectedCountries selectedIndustries : List Str)
    (searchValue : Str) (r : Record) : Prop :=
  (selectedCountries = [] ∨ r.country ∈ selectedCountries.map some) ∧
  (selectedIndustries = [] ∨ r.industry ∈ selectedIndustries.map some) ∧
  toLowerCase searchValue <:+:
    toLowerCase (r.name ++ r.country.getD [] ++ r.industry.getD [] ++
      numberToString r.numberOfEmployees)

/-- The filter predicate of the code on a record whose country and industry are
present: the fields are laid out one per line of the template, each preceded by
a line break and six spaces, with a line break and four spaces at the end. -/
def Passes (toLowerCase : Str → Str) (selectedCountries selectedIndustries : List Str)
    (searchValue : Str) (r : Record) : Prop :=
  (selectedCountries = [] ∨ r.country ∈ selectedCountries.map some) ∧
  (selectedIndustries = [] ∨ r.industry ∈ selectedIndustries.map some) ∧
  ∃ c i, r.country = some c ∧ r.industry = some i ∧
    toLowerCase searchValue <:+:
      toLowerCase (templateText r.name c i (numberToString r.numberOfEmployees))

/-- The list of first occurrences, by position, as the specification words
it: the record at position `i` is kept when no record before position `i` has
the same name once both names are trimmed and lowercased. -/
def firstOccurrences (toLowerCase : Str → Str) (data : List Record) : List Record :=
  (data.enum.filter fun p =>
    decide (toLowerCase (trim p.2.name) ∉
      (data.take p.1).map fun r => toLowerCase (trim r.name))).map Prod.snd

/-- The deduplication example of the specification: Acme, the same name in
lower case between two spaces, and Other. -/
def acmeTwiceAndOther : List Record :=
  [company "Acme" "UK" 3, company " acme " "UK" 4, company "Other" "UK" 5]

/-- The industries counted by the specification: present, trimmed and
lowercased, neither empty nor the sentinel `n/a`. -/
def countedIndustries (toLowerCase : Str → Str) (data : List Record) : List Str :=
  ((data.filterMap fun r => r.industry).map fun s => toLowerCase (trim s)).filter
    fun s => decide (s ≠ [] ∧ s ≠ "n/a".toList)

/-- The order that `comparator key order · · ≤ 0` is, on defined values. -/
def ComparesLE (key : Field) (order : SortOrder) (a b : Record) : Prop :=
  match order with
  | .asc => ValueLE (getField a key) (getField b key)
  | .desc => ValueLE (getField b key) (getField a key)

/-! ## Theorems

### Statements about the filter step -/

theorem includes_iff_infix (s t : Str) : includes s t = true ↔ t <:+: s := by
  induction s with
  | nil =>
    cases t <;> simp [includes]
  | cons c s ih =>
    rw [includes, Bool.or_eq_true, ih, List.infix_cons_iff, List.isPrefixOf_iff_prefix]

theorem arrayIncludes_iff (selected : List Str) (v : Option Str) :
    arrayIncludes selected v = true ↔ v ∈ selected.map some := by
  cases v <;> simp [arrayIncludes]

theorem matchesCountry_iff (sel : List Str) (r : Record) :
    matchesCountry sel r = true ↔ (sel = [] ∨ r.country ∈ sel.map some) := by
  unfold matchesCountry
  cases sel with
  | nil => simp
  | cons a l => simp [arrayIncludes_iff]

theorem matchesIndustry_iff (sel : List Str) (r : Record) :
    matchesIndustry sel r = true ↔ (sel = [] ∨ r.industry ∈ sel.map some) := by
  unfold matchesIndustry
  cases sel with
  | nil => simp
  | cons a l => simp [arrayIncludes_iff]

open Classical in
/-- C1, as amended: on a record store whose records all carry a country and an
industry, the filter step of `applyFilters` returns exactly the records, in
their original order, for which the country selection is empty or contains the
country, the industry selection is empty or contains the industry, and the
lowercased template text (each field on its own indented line) contains the
lowercased search term. -/
theorem filterData_eq_filter_passes (toLowerCase : Str → Str) (allData : List Record)
    (selectedCountries selectedIndustries : List Str) (searchValue : Str)
    (hfull : ∀ r ∈ allData, r.country ≠ none ∧ r.industry ≠ none) :
    filterData toLowerCase allData selectedCountries selectedIndustries searchValue =
      allData.filter fun r =>
        decide (Passes toLowerCase selectedCountries selectedIndustries searchValue r) := by
  unfold filterData
  apply List.filter_congr
  intro r hr
  obtain ⟨hc, hi⟩ := hfull r hr
  obtain ⟨c, hc⟩ := Option.ne_none_iff_exists'.mp hc
  obtain ⟨i, hi⟩ := Option.ne_none_iff_exists'.mp hi
  rw [Bool.eq_iff_iff]
  simp only [Bool.and_eq_true, decide_eq_true_eq, matchesCountry_iff, matchesIndustry_iff,
    matchesSearch, includes_iff_infix, combinedText, Passes, hc, hi, interpolate]
  constructor
  · rintro ⟨⟨h1, h2⟩, h3⟩
    exact ⟨h1, h2, c, i, rfl, rfl, h3⟩
  · rintro ⟨h1, h2, c', i', hc', hi', h3⟩
    cases hc'
    cases hi'
    exact ⟨⟨h1, h2⟩, h3⟩

open Classical in
/-- Witness of `filterData_eq_filter_passes` on the one-record store `[acme]`
with the search term `ac`. -/
theorem filterData_eq_filter_passes_witness :
    (∀ r ∈ [acme], r.country ≠ none ∧ r.industry ≠ none) ∧
    filterData asciiLower [acme] [] [] "ac".toList =
      [acme].filter fun r => decide (Passes asciiLower [] [] "ac".toList r) :=
  ⟨by simp [acme], filterData_eq_filter_passes asciiLower [acme] [] [] "ac".toList
    (by simp [acme])⟩

open Classical in
/-- C1 as stated fails: with the search term `meus` the record Acme / USA /
Tech / 5 satisfies the claimed predicate (its concatenation `acmeusatech5`
contains `meus`), so the claimed result is `[acme]`, but the code returns the
empty list because the template puts a line break and spaces between fields. -/
theorem filterData_not_concatenation :
    filterData asciiLower [acme] [] [] "meus".toList = [] ∧
    ([acme].filter fun r => decide (ClaimedPasses asciiLower [] [] "meus".toList r)) = [acme] := by
  refine ⟨by decide, ?_⟩
  have h : ClaimedPasses asciiLower [] [] "meus".toList acme := by
    refine ⟨Or.inl rfl, Or.inl rfl, ?_⟩
    exact ⟨"ac".toList, "atech5".toList, by decide⟩
  simp only [List.filter]
  rw [decide_eq_true h]

/-- C7 at its failing input: the search term `undefined` passes the search
predicate on a record whose country is missing and fails it on the same record
with the country set to the empty string. -/
theorem matchesSearch_missing_country_differs :
    matchesSearch asciiLower (asciiLower "undefined".toList) acmeNoCountry = true ∧
    matchesSearch asciiLower (asciiLower "undefined".toList) acmeEmptyCountry = false := by
  decide

/-! ### Statements about the aggregator -/

theorem contains_iff (l : List Str) (k : Str) : l.contains k = true ↔ k ∈ l := by
  simp

theorem deduplicateLoop_congr (tl : Str → Str) (s₁ s₂ : List Str)
    (h : ∀ k, k ∈ s₁ ↔ k ∈ s₂) (l : List Record) :
    deduplicateLoop tl s₁ l = deduplicateLoop tl s₂ l := by
  induction l generalizing s₁ s₂ with
  | nil => rfl
  | cons r l ih =>
    simp only [deduplicateLoop, contains_iff, h]
    split
    · exact ih s₁ s₂ h
    · rw [ih (nameKey tl r :: s₁) (nameKey tl r :: s₂) (by simp [h])]

theorem deduplicateLoop_append (tl : Str → Str) (seen : List Str) (l m : List Record) :
    deduplicateLoop tl seen (l ++ m) =
      deduplicateLoop tl seen l ++ deduplicateLoop tl (l.map (nameKey tl) ++ seen) m := by
  induction l generalizing seen with
  | nil => rfl
  | cons r l ih =>
    simp only [List.cons_append, deduplicateLoop, contains_iff, List.map_cons, List.append_eq]
    split
    · rename_i hmem
      rw [ih]
      congr 1
      apply deduplicateLoop_congr
      intro k
      simp only [List.mem_append, List.mem_cons]
      constructor
      · intro h
        exact Or.inr h
      · rintro (h | h)
        · exact Or.inr (h ▸ hmem)
        · exact h
    · rw [ih, List.cons_append]
      congr 2
      apply deduplicateLoop_congr
      intro k
      simp only [List.mem_append, List.mem_cons]
      tauto

theorem deduplicateLoop_sublist (tl : Str → Str) (seen : List Str) (l : List Record) :
    List.Sublist (deduplicateLoop tl seen l) l := by
  induction l generalizing seen with
  | nil => exact List.Sublist.slnil
  | cons r l ih =>
    simp only [deduplicateLoop]
    split
    · exact (ih seen).cons r
    · exact (ih _).cons₂ r

theorem mem_keys_deduplicateLoop (tl : Str → Str) (seen : List Str) (l : List Record) (k : Str) :
    k ∈ (deduplicateLoop tl seen l).map (nameKey tl) ↔ k ∈ l.map (nameKey tl) ∧ k ∉ seen := by
  induction l generalizing seen with
  | nil => simp [deduplicateLoop]
  | cons r l ih =>
    simp only [deduplicateLoop, contains_iff]
    split
    · rename_i hmem
      rw [ih]
      simp only [List.map_cons, List.mem_cons]
      constructor
      · rintro ⟨h1, h2⟩
        exact ⟨Or.inr h1, h2⟩
      · rintro ⟨h1 | h1, h2⟩
        · exact absurd (h1 ▸ hmem) h2
        · exact ⟨h1, h2⟩
    · rename_i hmem
      simp only [List.map_cons, List.mem_cons, ih]
      constructor
      · rintro (h | ⟨h1, h2⟩)
        · exact ⟨Or.inl h, h ▸ hmem⟩
        · exact ⟨Or.inr h1, fun h => h2 (Or.inr h)⟩
      · rintro ⟨h1 | h1, h2⟩
        · exact Or.inl h1
        · by_cases hk : k = nameKey tl r
          · exact Or.inl hk
          · exact Or.inr ⟨h1, fun h => h.elim hk h2⟩

theorem nodup_keys_deduplicateLoop (tl : Str → Str) (seen : List Str) (l : List Record) :
    ((deduplicateLoop tl seen l).map (nameKey tl)).Nodup := by
  induction l generalizing seen with
  | nil => simp [deduplicateLoop]
  | cons r l ih =>
    simp only [deduplicateLoop]
    split
    · exact ih seen
    · rw [List.map_cons, List.nodup_cons]
      refine ⟨?_, ih _⟩
      rw [mem_keys_deduplicateLoop]
      simp

theorem length_deduplicateDataByName (tl : Str → Str) (data : List Record) :
    (deduplicateDataByName tl data).length = (data.map (nameKey tl)).toFinset.card := by
  have hnd := nodup_keys_deduplicateLoop tl [] data
  have hmem : ((deduplicateLoop tl [] data).map (nameKey tl)).toFinset =
      (data.map (nameKey tl)).toFinset := by
    ext k
    simp only [List.mem_toFinset, mem_keys_deduplicateLoop]
    simp
  rw [← hmem, List.toFinset_card_of_nodup hnd, List.length_map]
  rfl

theorem deduplicateDataByName_snoc (tl : Str → Str) (l : List Record) (r : Record) :
    deduplicateDataByName tl (l ++ [r]) =
      deduplicateDataByName tl l ++
        (if nameKey tl r ∈ l.map (nameKey tl) then [] else [r]) := by
  unfold deduplicateDataByName
  rw [deduplicateLoop_append]
  congr 1
  simp only [deduplicateLoop, contains_iff, List.append_nil]

/-- In the deduplication example the employees of all three records are
summed, the duplicate included. -/
theorem renderStats_duplicate_names_total :
    (renderStats asciiLower acmeTwiceAndOther).statTotalEmployees = 12 := by
  decide

theorem firstOccurrences_snoc (tl : Str → Str) (l : List Record) (r : Record) :
    firstOccurrences tl (l ++ [r]) =
      firstOccurrences tl l ++
        (if tl (trim r.name) ∈ l.map (fun q => tl (trim q.name)) then [] else [r]) := by
  unfold firstOccurrences
  rw [List.enum_append, List.filter_append, List.map_append, List.enumFrom_singleton]
  congr 1
  · congr 1
    apply List.filter_congr
    intro p hp
    rw [List.take_append_of_le_length (Nat.le_of_lt (List.fst_lt_of_mem_enum hp))]
  · simp only [List.filter_cons, List.filter_nil, List.take_left, decide_not]
    by_cases h : tl (trim r.name) ∈ l.map (fun q => tl (trim q.name)) <;> simp [h]

/-- C5: `deduplicateDataByName` returns the subsequence of the input made of
exactly the first occurrence, in input order, of each distinct name key, the
key of a record being its name trimmed of leading and trailing whitespace and
then lowercased; so the company count shown by `renderStats` is the number of
distinct trimmed, lowercased names, and on the names Acme, ` acme ` and Other
it is 2, the record kept for the first key being the first one. -/
theorem deduplicateDataByName_first_occurrences (toLowerCase : Str → Str)
    (data : List Record) :
    deduplicateDataByName toLowerCase data = firstOccurrences toLowerCase data ∧
    List.Sublist (deduplicateDataByName toLowerCase data) data ∧
    (renderStats toLowerCase data).statTotalCompanies =
      (data.map fun r => toLowerCase (trim r.name)).toFinset.card ∧
    deduplicateDataByName asciiLower acmeTwiceAndOther =
      [company "Acme" "UK" 3, company "Other" "UK" 5] ∧
    (renderStats asciiLower acmeTwiceAndOther).statTotalCompanies = 2 := by
  refine ⟨?_, deduplicateLoop_sublist toLowerCase [] data,
    length_deduplicateDataByName toLowerCase data, by decide, by decide⟩
  induction data using List.reverseRecOn with
  | nil => rfl
  | append_singleton l r ih =>
    rw [deduplicateDataByName_snoc, firstOccurrences_snoc, ih]
    rfl

theorem foldl_add_spec {α : Type} [DecidableEq α] (values acc : List α) (hacc : acc.Nodup) :
    (values.foldl (fun set v => if set.contains v then set else set ++ [v]) acc).Nodup ∧
    ∀ x, x ∈ values.foldl (fun set v => if set.contains v then set else set ++ [v]) acc ↔
      x ∈ acc ∨ x ∈ values := by
  induction values generalizing acc with
  | nil => simpa using hacc
  | cons v values ih =>
    rw [List.foldl_cons]
    by_cases hv : v ∈ acc
    · have hc : acc.contains v = true := by simpa using hv
      rw [if_pos hc]
      refine ⟨(ih acc hacc).1, fun x => ?_⟩
      rw [(ih acc hacc).2, List.mem_cons]
      constructor
      · rintro (h | h)
        · exact Or.inl h
        · exact Or.inr (Or.inr h)
      · rintro (h | h | h)
        · exact Or.inl h
        · exact Or.inl (h ▸ hv)
        · exact Or.inr h
    · have hc : ¬ acc.contains v = true := by simpa using hv
      rw [if_neg hc]
      have hnd : (acc ++ [v]).Nodup := by
        rw [List.nodup_append]
        refine ⟨hacc, List.nodup_singleton v, ?_⟩
        intro a ha hb
        rw [List.mem_singleton] at hb
        exact hv (hb ▸ ha)
      refine ⟨(ih _ hnd).1, fun x => ?_⟩
      rw [(ih _ hnd).2, List.mem_append, List.mem_singleton, List.mem_cons]
      tauto

theorem length_newSet {α : Type} [DecidableEq α] (values : List α) :
    (newSet values).length = values.toFinset.card := by
  have h := foldl_add_spec values [] List.nodup_nil
  have hset : (newSet values).toFinset = values.toFinset := by
    ext x
    simp only [List.mem_toFinset]
    unfold newSet
    rw [h.2]
    simp
  rw [← hset, List.toFinset_card_of_nodup]
  exact h.1

theorem industry_test_some (s na : Str) :
    (truthy (some s) && some s != some na) = decide (s ≠ [] ∧ s ≠ na) := by
  by_cases h1 : s = []
  · simp [truthy, h1]
  · by_cases h2 : s = na
    · simp [truthy, h2]
    · simp [truthy, h1, h2, List.isEmpty_iff]

theorem filter_map_industries (tl : Str → Str) (na : Str) (data : List Record) :
    ((data.map fun item => normalizeField tl item.industry).filter
      fun ind => truthy ind && ind != some na) =
      ((((data.filterMap fun r => r.industry).map fun s => tl (trim s)).filter
        fun s => decide (s ≠ [] ∧ s ≠ na))).map some := by
  induction data with
  | nil => rfl
  | cons r l ih =>
    rw [List.map_cons, List.filter_cons, ih]
    cases hind : r.industry with
    | none =>
      rw [List.filterMap_cons_none hind]
      simp [normalizeField, truthy]
    | some i =>
      rw [List.filterMap_cons_some hind, List.map_cons, List.filter_cons]
      have e : normalizeField tl (some i) = some (tl (trim i)) := rfl
      rw [e, industry_test_some]
      split <;> rfl

theorem card_toFinset_map_some (l : List Str) :
    (l.map some).toFinset.card = l.toFinset.card := by
  rw [List.card_toFinset, List.card_toFinset,
    List.dedup_map_of_injective (Option.some_injective Str), List.length_map]

/-- C9: the industry count of `renderStats` is the number of distinct industry
values after trimming and lowercasing, leaving out missing values, values that
are empty once trimmed, and the sentinel `n/a` in any letter case; on the
industries Tech, n/a, N/A, Finance it is 2. -/
theorem statIndustries_eq_card (toLowerCase : Str → Str) (data : List Record) :
    (renderStats toLowerCase data).statIndustries =
      (countedIndustries toLowerCase data).toFinset.card ∧
    (renderStats asciiLower
      (["Tech", "n/a", "N/A", "Finance"].map withIndustry)).statIndustries = 2 := by
  refine ⟨?_, by decide⟩
  show (uniqueIndustries toLowerCase data).length = _
  unfold uniqueIndustries
  rw [length_newSet, filter_map_industries, card_toFinset_map_some]
  rfl

/-! ### Statements about sorting -/

theorem insertOrdered_perm {α : Type} (cmp : α → α → Int) (x : α) (l : List α) :
    (insertOrdered cmp x l).Perm (x :: l) := by
  induction l with
  | nil => exact List.Perm.refl _
  | cons y ys ih =>
    unfold insertOrdered
    split
    · exact List.Perm.refl _
    · exact ((List.Perm.cons y ih).trans (List.Perm.swap x y ys))

theorem arraySort_perm {α : Type} (cmp : α → α → Int) (l : List α) :
    (arraySort cmp l).Perm l := by
  induction l with
  | nil => exact List.Perm.refl _
  | cons x xs ih =>
    exact (insertOrdered_perm cmp x _).trans (List.Perm.cons x ih)

theorem insertOrdered_pairwise {α : Type} (cmp : α → α → Int) (S : α → Prop)
    (htot : ∀ a b, S a → S b → cmp a b ≤ 0 ∨ cmp b a ≤ 0)
    (htrans : ∀ a b c, S a → S b → S c → cmp a b ≤ 0 → cmp b c ≤ 0 → cmp a c ≤ 0)
    (x : α) (l : List α) (hx : S x) (hl : ∀ y ∈ l, S y)
    (hs : l.Pairwise fun a b => cmp a b ≤ 0) :
    (insertOrdered cmp x l).Pairwise fun a b => cmp a b ≤ 0 := by
  induction l with
  | nil => simp [insertOrdered]
  | cons y ys ih =>
    have hy : S y := hl y (List.mem_cons_self y ys)
    have hys : ∀ z ∈ ys, S z := fun z hz => hl z (List.mem_cons_of_mem y hz)
    rw [List.pairwise_cons] at hs
    unfold insertOrdered
    split
    · rename_i hxy
      refine List.pairwise_cons.mpr ⟨?_, List.pairwise_cons.mpr hs⟩
      intro z hz
      rcases List.mem_cons.mp hz with rfl | hz
      · exact hxy
      · exact htrans x y z hx hy (hys z hz) hxy (hs.1 z hz)
    · rename_i hxy
      refine List.pairwise_cons.mpr ⟨?_, ih hys hs.2⟩
      intro z hz
      rcases List.mem_cons.mp ((insertOrdered_perm cmp x ys).mem_iff.mp hz) with rfl | hz
      · exact (htot z y hx hy).resolve_left hxy
      · exact hs.1 z hz

theorem arraySort_pairwise {α : Type} (cmp : α → α → Int) (S : α → Prop)
    (htot : ∀ a b, S a → S b → cmp a b ≤ 0 ∨ cmp b a ≤ 0)
    (htrans : ∀ a b c, S a → S b → S c → cmp a b ≤ 0 → cmp b c ≤ 0 → cmp a c ≤ 0)
    (l : List α) (hl : ∀ y ∈ l, S y) :
    (arraySort cmp l).Pairwise fun a b => cmp a b ≤ 0 := by
  induction l with
  | nil => exact List.Pairwise.nil
  | cons x xs ih =>
    have hxs : ∀ y ∈ xs, S y := fun y hy => hl y (List.mem_cons_of_mem x hy)
    refine insertOrdered_pairwise cmp S htot htrans x _ (hl x (List.mem_cons_self x xs)) ?_ (ih hxs)
    intro y hy
    exact hxs y ((arraySort_perm cmp xs).mem_iff.mp hy)

theorem insertOrdered_filter {α : Type} (cmp : α → α → Int) (p : α → Bool)
    (hp : ∀ a b, p a = true → p b = true → cmp a b ≤ 0) (x : α) (l : List α) :
    (insertOrdered cmp x l).filter p = (x :: l).filter p := by
  induction l with
  | nil => rfl
  | cons y ys ih =>
    unfold insertOrdered
    split
    · rfl
    · rename_i hxy
      rw [List.filter_cons, ih]
      by_cases hx : p x = true
      · have hy : p y = false := by
          by_contra hne
          exact hxy (hp x y hx (by simpa using hne))
        simp [List.filter_cons, hx, hy]
      · simp [List.filter_cons, hx]

theorem arraySort_filter {α : Type} (cmp : α → α → Int) (p : α → Bool)
    (hp : ∀ a b, p a = true → p b = true → cmp a b ≤ 0) (l : List α) :
    (arraySort cmp l).filter p = l.filter p := by
  induction l with
  | nil => rfl
  | cons x xs ih =>
    show (insertOrdered cmp x (arraySort cmp xs)).filter p = _
    rw [insertOrdered_filter cmp p hp, List.filter_cons, List.filter_cons, ih]

theorem getField_kind (key : Field) :
    (∀ r, getField r key ≠ .undefined → ∃ s, getField r key = .string s) ∨
    (∀ r, ∃ n, getField r key = .number n) := by
  cases key
  · exact Or.inl fun r _ => ⟨r.name, rfl⟩
  · refine Or.inl fun r h => ?_
    cases hc : r.country with
    | none => simp [getField, hc] at h
    | some c => exact ⟨c, by simp [getField, hc]⟩
  · refine Or.inl fun r h => ?_
    cases hc : r.industry with
    | none => simp [getField, hc] at h
    | some c => exact ⟨c, by simp [getField, hc]⟩
  · exact Or.inr fun r => ⟨r.numberOfEmployees, rfl⟩
  · exact Or.inl fun r h => absurd rfl h

theorem valueLess_irrefl (v : Value) : valueLess v v = false := by
  cases v <;> simp [valueLess, stringLess]

theorem comparator_le_iff (key : Field) (order : SortOrder) (a b : Record)
    (ha : getField a key ≠ .undefined) (hb : getField b key ≠ .undefined) :
    comparator key order a b ≤ 0 ↔ ComparesLE key order a b := by
  unfold comparator ComparesLE
  rcases getField_kind key with hk | hk
  · obtain ⟨s, hs⟩ := hk a ha
    obtain ⟨t, ht⟩ := hk b hb
    rw [hs, ht]
    simp only [valueLess, stringLess, ValueLE, decide_eq_true_eq]
    cases order
    · by_cases h1 : codeUnits s < codeUnits t
      · simp [h1, le_of_lt h1]
      · by_cases h2 : codeUnits t < codeUnits s
        · simp [h1, h2, not_le.mpr h2]
        · simp [h1, h2, not_lt.mp h2]
    · by_cases h1 : codeUnits s < codeUnits t
      · simp [h1, not_le.mpr h1]
      · by_cases h2 : codeUnits t < codeUnits s
        · simp [h1, h2, not_lt.mp h1]
        · simp [h1, h2, not_lt.mp h1]
  · obtain ⟨m, hm⟩ := hk a
    obtain ⟨n, hn⟩ := hk b
    rw [hm, hn]
    simp only [valueLess, ValueLE, decide_eq_true_eq]
    cases order
    · by_cases h1 : m < n
      · simp [h1, le_of_lt h1]
      · by_cases h2 : n < m
        · simp [h1, h2, not_le.mpr h2]
        · simp [h1, h2, not_lt.mp h2]
    · by_cases h1 : m < n
      · simp [h1, not_le.mpr h1]
      · by_cases h2 : n < m
        · simp [h1, h2, not_lt.mp h1]
        · simp [h1, h2, not_lt.mp h1]

theorem valueLE_total (key : Field) (a b : Record)
    (ha : getField a key ≠ .undefined) (hb : getField b key ≠ .undefined) :
    ValueLE (getField a key) (getField b key) ∨ ValueLE (getField b key) (getField a key) := by
  rcases getField_kind key with hk | hk
  · obtain ⟨s, hs⟩ := hk a ha
    obtain ⟨t, ht⟩ := hk b hb
    rw [hs, ht]
    exact le_total (codeUnits s) (codeUnits t)
  · obtain ⟨m, hm⟩ := hk a
    obtain ⟨n, hn⟩ := hk b
    rw [hm, hn]
    exact le_total m n

theorem valueLE_trans (x y z : Value) (hxy : ValueLE x y) (hyz : ValueLE y z) :
    ValueLE x z := by
  cases x <;> cases y <;> cases z <;> simp only [ValueLE] at hxy hyz ⊢
  · exact le_trans hxy hyz
  · exact Nat.le_trans hxy hyz

/-- C3: when every record of the sequence has a defined value in the sort
field, `applySorting` returns a permutation of the sequence that is ordered by
that field (non-decreasing under `asc`, non-increasing under `desc`), and under
either order the records that share a value of the field appear in the same
relative order as in the input. -/
theorem applySorting_sorted_stable (key : Field) (order : SortOrder) (data : List Record)
    (hdef : ∀ r ∈ data, getField r key ≠ .undefined) :
    (applySorting ⟨some key, order⟩ data).Perm data ∧
    OrderedBy key order (applySorting ⟨some key, order⟩ data) ∧
    ∀ v : Value, (applySorting ⟨some key, order⟩ data).filter (fun r => getField r key == v) =
      data.filter (fun r => getField r key == v) := by
  have hperm : (applySorting ⟨some key, order⟩ data).Perm data := arraySort_perm _ data
  refine ⟨hperm, ?_, ?_⟩
  · have hpw : (arraySort (comparator key order) data).Pairwise
        fun a b => comparator key order a b ≤ 0 := by
      refine arraySort_pairwise _ (fun r => getField r key ≠ .undefined) ?_ ?_ data hdef
      · intro a b ha hb
        rw [comparator_le_iff key order a b ha hb, comparator_le_iff key order b a hb ha]
        cases order
        · exact valueLE_total key a b ha hb
        · exact valueLE_total key b a hb ha
      · intro a b c ha hb hc
        rw [comparator_le_iff key order a b ha hb, comparator_le_iff key order b c hb hc,
          comparator_le_iff key order a c ha hc]
        cases order
        · exact valueLE_trans _ _ _
        · exact fun h1 h2 => valueLE_trans _ _ _ h2 h1
    have hmem : ∀ r ∈ arraySort (comparator key order) data, getField r key ≠ .undefined :=
      fun r hr => hdef r (hperm.mem_iff.mp hr)
    have himp : (arraySort (comparator key order) data).Pairwise (ComparesLE key order) :=
      hpw.imp_of_mem fun {a b} ha hb h =>
        (comparator_le_iff key order a b (hmem a ha) (hmem b hb)).mp h
    unfold OrderedBy
    cases order <;> exact himp
  · intro v
    apply arraySort_filter
    intro a b ha hb
    have hab : getField a key = getField b key := by
      rw [beq_iff_eq] at ha hb
      rw [ha, hb]
    unfold comparator
    rw [hab, valueLess_irrefl]
    simp

/-- Witness of `applySorting_sorted_stable`: four companies sorted by country,
descending; Birch and Cedar, both in the UK, keep their input order. -/
theorem applySorting_sorted_stable_witness :
    (∀ r ∈ fourCompanies, getField r .country ≠ .undefined) ∧
    applySorting ⟨some .country, .desc⟩ fourCompanies =
      [company "Acme" "USA" 5, company "Birch" "UK" 7, company "Cedar" "UK" 3,
       company "Dune" "Chile" 9] ∧
    (applySorting ⟨some .country, .desc⟩ fourCompanies).Perm fourCompanies ∧
    OrderedBy .country .desc (applySorting ⟨some .country, .desc⟩ fourCompanies) ∧
    ∀ v : Value,
      (applySorting ⟨some .country, .desc⟩ fourCompanies).filter
          (fun r => getField r .country == v) =
        fourCompanies.filter (fun r => getField r .country == v) :=
  ⟨by decide, by decide, applySorting_sorted_stable .country .desc fourCompanies (by decide)⟩

/-! ### Statements about pagination -/

theorem totalPages_eq_ceil (length : Nat) :
    totalPages length = ⌈(length : ℚ) / 10⌉₊ := by
  by_cases h0 : length = 0
  · subst h0
    simp [totalPages, rowsPerPage]
  · obtain ⟨k, hk⟩ : ∃ k, totalPages length = k + 1 := by
      refine ⟨totalPages length - 1, ?_⟩
      unfold totalPages rowsPerPage
      omega
    have h1 : k * 10 < length := by
      unfold totalPages rowsPerPage at hk
      omega
    have h2 : length ≤ (k + 1) * 10 := by
      unfold totalPages rowsPerPage at hk
      omega
    rw [hk]
    symm
    rw [Nat.ceil_eq_iff (Nat.succ_ne_zero k)]
    constructor
    · rw [lt_div_iff₀ (by norm_num)]
      have h3 : k + 1 - 1 = k := rfl
      rw [h3]
      exact_mod_cast h1
    · rw [div_le_iff₀ (by norm_num)]
      exact_mod_cast h2

theorem slice_eq_nil_of_length_le {α : Type} (array : List α) (start stop : Int)
    (h : (array.length : Int) ≤ start) : slice array start stop = [] := by
  unfold slice relativeIndex
  have h0 : ¬ start < 0 := by omega
  have hk : min start.toNat array.length = array.length := by omega
  simp only [h0, if_false, hk, List.drop_length, List.take_nil]

/-- C4: for every ordered sequence and every `currentPage` greater than
`totalPages = ceil(length / 10)`, the page slice computed by `renderTable` is
empty and `hasNext` is false. -/
theorem renderTable_beyond_last_page (filteredData : List Record) (currentPage : Int)
    (h : currentPage > totalPages filteredData.length) :
    (renderTable currentPage filteredData).pageData = [] ∧
    hasNext currentPage filteredData = false := by
  have hstart : (filteredData.length : Int) ≤ (currentPage - 1) * rowsPerPage := by
    unfold totalPages rowsPerPage at h
    unfold rowsPerPage
    push_cast at h ⊢
    omega
  constructor
  · exact slice_eq_nil_of_length_le _ _ _ hstart
  · simp only [hasNext, renderTable, Bool.not_eq_false', decide_eq_true_eq, ge_iff_le]
    unfold rowsPerPage at hstart ⊢
    push_cast at hstart ⊢
    omega

/-- Witness of `renderTable_beyond_last_page`: four records make one page, and
page 2 shows nothing and has no next page. -/
theorem renderTable_beyond_last_page_witness :
    (2 : Int) > totalPages fourCompanies.length ∧
    (renderTable 2 fourCompanies).pageData = [] ∧ hasNext 2 fourCompanies = false :=
  ⟨by decide, renderTable_beyond_last_page fourCompanies 2 (by decide)⟩

/-! ### Statements about the page state -/

theorem applySorting_length (currentSort : CurrentSort) (l : List Record) :
    (applySorting currentSort l).length = l.length := by
  unfold applySorting
  cases currentSort.key with
  | none => rfl
  | some key => exact (arraySort_perm _ l).length_eq

theorem slice_length_pos {α : Type} (array : List α) (start : Int) (n : Nat)
    (h0 : 0 ≤ start) (h1 : start < array.length) (hn : 0 < n) :
    0 < (slice array start (start + n)).length := by
  unfold slice relativeIndex
  have hs : ¬ start < 0 := by omega
  have he : ¬ start + (n : Int) < 0 := by omega
  simp only [hs, he, if_false, List.length_take, List.length_drop]
  omega

/-- C8: whatever the page was before, a filter or search change (`applyFilters`,
also through the reset button) leaves `currentPage` equal to 1, and a click on
a column header leaves `currentPage` as it was. -/
theorem currentPage_after_filter_and_sort (toLowerCase : Str → Str) (s : State)
    (countryFilter industryFilter : List Checkbox) (searchInput : Str) (i : Nat) :
    (applyFilters toLowerCase s).currentPage = 1 ∧
    (filterChange toLowerCase countryFilter industryFilter searchInput s).currentPage = 1 ∧
    (resetFilters toLowerCase s).currentPage = 1 ∧
    (headerClick i s).currentPage = s.currentPage := by
  refine ⟨rfl, rfl, rfl, ?_⟩
  unfold headerClick
  cases s.headers.get? i <;> rfl

theorem pageInRange_applyFilters (tl : Str → Str) (s : State) :
    PageInRange (applyFilters tl s) :=
  ⟨le_refl 1, Or.inl rfl⟩

theorem pageInRange_headerClick (i : Nat) (s : State) (h : PageInRange s) :
    PageInRange (headerClick i s) := by
  unfold headerClick
  cases s.headers.get? i with
  | none => exact h
  | some header =>
    unfold PageInRange at h ⊢
    simp only [applySorting_length]
    exact h

theorem pageInRange_prevPage (s : State) (h : PageInRange s) : PageInRange (prevPage s) := by
  unfold prevPage
  split
  · rename_i hgt
    unfold PageInRange rowsPerPage at h ⊢
    simp only at h ⊢
    push_cast at h ⊢
    omega
  · exact h

theorem pageInRange_nextPage (s : State) (h : PageInRange s) : PageInRange (nextPage s) := by
  unfold nextPage
  split
  · rename_i hlt
    unfold PageInRange at h ⊢
    unfold rowsPerPage at h hlt ⊢
    simp only at h ⊢
    push_cast at h hlt ⊢
    omega
  · exact h

theorem pageInRange_of_reachable (tl : Str → Str) (s : State) (h : Reachable tl s) :
    PageInRange s := by
  induction h with
  | init => exact ⟨le_refl 1, Or.inl rfl⟩
  | dataLoaded data cf inf _ ih => exact ih
  | filterChange cf inf si _ _ => exact pageInRange_applyFilters tl _
  | resetFilters _ _ => exact pageInRange_applyFilters tl _
  | headerClick i _ ih => exact pageInRange_headerClick i _ ih
  | prevPage _ ih => exact pageInRange_prevPage _ ih
  | nextPage _ ih => exact pageInRange_nextPage _ ih

/-- C10: in every state reachable from the initial state by data loads, filter
or search changes, resets, header clicks and previous- and next-page clicks,
`currentPage` is at least 1 and either is 1 or has
`(currentPage - 1) * 10 < filteredData.length`; in the second case the slice
shown is not empty and `currentPage` is at most `ceil(length / 10)`. -/
theorem reachable_page_in_range (toLowerCase : Str → Str) (s : State)
    (h : Reachable toLowerCase s) :
    1 ≤ s.currentPage ∧
    (s.currentPage = 1 ∨
      ((s.currentPage - 1) * 10 < s.filteredData.length ∧
        (renderTable s.currentPage s.filteredData).pageData ≠ [] ∧
        s.currentPage ≤ totalPages s.filteredData.length)) := by
  obtain ⟨h1, h2⟩ := pageInRange_of_reachable toLowerCase s h
  refine ⟨h1, ?_⟩
  rcases h2 with h2 | h2
  · exact Or.inl h2
  · refine Or.inr ⟨h2, ?_, ?_⟩
    · have hpos := slice_length_pos s.filteredData ((s.currentPage - 1) * rowsPerPage)
        rowsPerPage (by unfold rowsPerPage; push_cast; omega) h2 (by decide)
      intro hnil
      simp only [renderTable] at hnil
      rw [hnil] at hpos
      exact Nat.lt_irrefl 0 hpos
    · unfold totalPages
      unfold rowsPerPage at h2 ⊢
      push_cast at h2 ⊢
      omega

/-- Witness of `reachable_page_in_range`: after eleven records are loaded and
filtered, a click on the next-page button leaves the page on page 2. -/
theorem reachable_page_in_range_witness :
    Reachable asciiLower secondPageState ∧ secondPageState.currentPage = 2 ∧
    1 ≤ secondPageState.currentPage ∧
    (secondPageState.currentPage = 1 ∨
      ((secondPageState.currentPage - 1) * 10 < secondPageState.filteredData.length ∧
        (renderTable secondPageState.currentPage secondPageState.filteredData).pageData ≠ [] ∧
        secondPageState.currentPage ≤ totalPages secondPageState.filteredData.length)) :=
  have hr : Reachable asciiLower secondPageState :=
    Reachable.nextPage (Reachable.filterChange [] [] []
      (Reachable.dataLoaded elevenRecords [] [] (Reachable.init [] [] [] [] [])))
  ⟨hr, by decide, reachable_page_in_range asciiLower secondPageState hr⟩

/-! ### Statements about the URL codec -/

theorem getCheckedValues_cons (cb : Checkbox) (g : List Checkbox) :
    getCheckedValues (cb :: g) =
      if cb.checked then cb.value :: getCheckedValues g else getCheckedValues g := by
  unfold getCheckedValues
  rw [List.filter_cons]
  split <;> rfl

theorem getCheckedValues_unchecked (g : List Checkbox) :
    getCheckedValues (g.map fun cb => { cb with checked := false }) = [] := by
  induction g with
  | nil => rfl
  | cons cb g ih => rw [List.map_cons, getCheckedValues_cons, ih]; rfl

theorem getCheckedValues_subset_values (g : List Checkbox) (v : Str)
    (h : v ∈ getCheckedValues g) : v ∈ g.map fun cb => cb.value := by
  unfold getCheckedValues at h
  obtain ⟨cb, hcb, rfl⟩ := List.mem_map.mp h
  exact List.mem_map.mpr ⟨cb, (List.mem_filter.mp hcb).1, rfl⟩

theorem values_checkFirst (v : Str) (g : List Checkbox) :
    ((checkFirst v g).map fun cb => cb.value) = g.map fun cb => cb.value := by
  induction g with
  | nil => rfl
  | cons cb g ih =>
    unfold checkFirst
    split
    · rfl
    · rw [List.map_cons, List.map_cons, ih]

theorem mem_getCheckedValues_checkFirst (v : Str) (g : List Checkbox) (x : Str) :
    x ∈ getCheckedValues (checkFirst v g) ↔
      x ∈ getCheckedValues g ∨ (x = v ∧ v ∈ g.map fun cb => cb.value) := by
  induction g with
  | nil => simp [checkFirst, getCheckedValues]
  | cons cb g ih =>
    unfold checkFirst
    split
    · rename_i hv
      rw [getCheckedValues_cons, getCheckedValues_cons]
      simp only [if_true, List.mem_cons, List.map_cons, hv]
      by_cases hc : cb.checked = true
      · simp only [hc, if_true, List.mem_cons, hv]
        tauto
      · simp only [hc, if_false, Bool.false_eq_true]
        tauto
    · rename_i hv
      rw [getCheckedValues_cons, getCheckedValues_cons]
      have hv' : ¬ v = cb.value := fun h => hv h.symm
      by_cases hc : cb.checked = true
      · simp only [hc, if_true, List.mem_cons, List.map_cons, ih, hv', false_or]
        tauto
      · simp only [hc, if_false, Bool.false_eq_true, List.mem_cons, List.map_cons, ih, hv',
          false_or]

theorem checkAll_spec (values : List Str) (g : List Checkbox)
    (hsafe : ∀ v ∈ values, cssStringSafe v = true) :
    ∃ g', checkAll g values = some g' ∧
      (∀ x, x ∈ getCheckedValues g' ↔
        x ∈ getCheckedValues g ∨ (x ∈ values ∧ x ∈ g.map fun cb => cb.value)) := by
  induction values generalizing g with
  | nil => exact ⟨g, rfl, fun x => by simp⟩
  | cons v values ih =>
    have hv : cssStringSafe v = true := hsafe v (List.mem_cons_self v values)
    obtain ⟨g', hg', hmem⟩ := ih (checkFirst v g)
      (fun w hw => hsafe w (List.mem_cons_of_mem v hw))
    refine ⟨g', ?_, fun x => ?_⟩
    · rw [checkAll, if_pos hv, hg']
    · rw [hmem, mem_getCheckedValues_checkFirst, values_checkFirst, List.mem_cons]
      constructor
      · rintro ((h | ⟨rfl, h⟩) | ⟨h1, h2⟩)
        · exact Or.inl h
        · exact Or.inr ⟨Or.inl rfl, h⟩
        · exact Or.inr ⟨Or.inr h1, h2⟩
      · rintro (h | ⟨rfl | h1, h2⟩)
        · exact Or.inl (Or.inl h)
        · exact Or.inl (Or.inr ⟨rfl, h2⟩)
        · exact Or.inr ⟨h1, h2⟩

theorem checkAll_unchecked (g : List Checkbox)
    (hsafe : ∀ v ∈ getCheckedValues g, cssStringSafe v = true) :
    ∃ g', checkAll (g.map fun cb => { cb with checked := false }) (getCheckedValues g) = some g' ∧
      ∀ x, x ∈ getCheckedValues g' ↔ x ∈ getCheckedValues g := by
  obtain ⟨g', hg', hmem⟩ :=
    checkAll_spec (getCheckedValues g) (g.map fun cb => { cb with checked := false }) hsafe
  refine ⟨g', hg', fun x => ?_⟩
  rw [hmem, getCheckedValues_unchecked, List.map_map]
  constructor
  · rintro (h | ⟨h, _⟩)
    · exact absurd h (List.not_mem_nil x)
    · exact h
  · intro h
    exact Or.inr ⟨h, getCheckedValues_subset_values g x h⟩

theorem paramsSet_of_absent (params : List (Str × Str)) (name value : Str)
    (h : ∀ p ∈ params, p.1 ≠ name) : paramsSet params name value = params ++ [(name, value)] := by
  induction params with
  | nil => rfl
  | cons p rest ih =>
    rw [paramsSet, if_neg (h p (List.mem_cons_self p rest)),
      ih fun q hq => h q (List.mem_cons_of_mem p hq)]
    rfl

theorem paramsGetAll_append (p q : List (Str × Str)) (name : Str) :
    paramsGetAll (p ++ q) name = paramsGetAll p name ++ paramsGetAll q name := by
  simp [paramsGetAll]

theorem paramsGetAll_tagged_same (name : Str) (values : List Str) :
    paramsGetAll (values.map fun val => (name, val)) name = values := by
  induction values with
  | nil => rfl
  | cons v values ih =>
    unfold paramsGetAll at ih ⊢
    rw [List.map_cons, List.filter_cons]
    simp only [decide_True, if_true, List.map_cons, ih]

theorem paramsGetAll_tagged_other (name other : Str) (values : List Str) (h : other ≠ name) :
    paramsGetAll (values.map fun val => (other, val)) name = [] := by
  induction values with
  | nil => rfl
  | cons v values ih =>
    unfold paramsGetAll at ih ⊢
    rw [List.map_cons, List.filter_cons]
    simp only [h, decide_False, Bool.false_eq_true, if_false, ih]

theorem paramsGet_tagged_other_append (name other : Str) (values : List Str)
    (rest : List (Str × Str)) (h : other ≠ name) :
    paramsGet ((values.map fun val => (other, val)) ++ rest) name = paramsGet rest name := by
  induction values with
  | nil => rfl
  | cons v values ih =>
    unfold paramsGet at ih ⊢
    rw [List.map_cons, List.cons_append, List.find?_cons]
    simp only [h, decide_False, ih]

theorem url_updateURLParams (s : State) :
    (updateURLParams s).url =
      ((getCheckedValues s.countryFilter).map fun val => ("country".toList, val)) ++
      ((getCheckedValues s.industryFilter).map fun val => ("industry".toList, val)) ++
      (if !(trim s.searchInput).isEmpty then [("search".toList, trim s.searchInput)] else []) := by
  unfold updateURLParams
  simp only
  split
  · apply paramsSet_of_absent
    intro p hp
    rcases List.mem_append.mp hp with h | h
    · obtain ⟨v, _, rfl⟩ := List.mem_map.mp h
      show "country".toList ≠ "search".toList
      decide
    · obtain ⟨v, _, rfl⟩ := List.mem_map.mp h
      show "industry".toList ≠ "search".toList
      decide
  · rw [List.append_nil]

theorem paramsGetAll_country (s : State) :
    paramsGetAll (updateURLParams s).url "country".toList = getCheckedValues s.countryFilter := by
  rw [url_updateURLParams, paramsGetAll_append, paramsGetAll_append, paramsGetAll_tagged_same,
    paramsGetAll_tagged_other _ _ _ (by decide)]
  split <;> simp [paramsGetAll]

theorem paramsGetAll_industry (s : State) :
    paramsGetAll (updateURLParams s).url "industry".toList =
      getCheckedValues s.industryFilter := by
  rw [url_updateURLParams, paramsGetAll_append, paramsGetAll_append, paramsGetAll_tagged_same,
    paramsGetAll_tagged_other _ _ _ (by decide)]
  split <;> simp [paramsGetAll]

theorem paramsGet_search (s : State) :
    paramsGet (updateURLParams s).url "search".toList =
      if !(trim s.searchInput).isEmpty then some (trim s.searchInput) else none := by
  rw [url_updateURLParams, List.append_assoc,
    paramsGet_tagged_other_append _ _ _ _ (by decide),
    paramsGet_tagged_other_append _ _ _ _ (by decide)]
  split <;> simp [paramsGet]

/-- C2, as amended: when no checked checkbox value contains a character that
is special between the double quotes of a CSS selector, serialising the page
with `updateURLParams` and deserialising the result with `setFiltersFromURL`
into the cleared page gives the same set of selected countries, the same set
of selected industries, and the search term trimmed of leading and trailing
whitespace. -/
theorem url_round_trip (s : State)
    (hsafe : ∀ v ∈ getCheckedValues s.countryFilter ++ getCheckedValues s.industryFilter,
      cssStringSafe v = true) :
    ∃ t, setFiltersFromURL (cleared (updateURLParams s)) = some t ∧
      (∀ v, v ∈ getCheckedValues t.countryFilter ↔ v ∈ getCheckedValues s.countryFilter) ∧
      (∀ v, v ∈ getCheckedValues t.industryFilter ↔ v ∈ getCheckedValues s.industryFilter) ∧
      t.searchInput = trim s.searchInput := by
  obtain ⟨gc, hgc, hmc⟩ := checkAll_unchecked s.countryFilter
    (fun v hv => hsafe v (List.mem_append_left _ hv))
  obtain ⟨gi, hgi, hmi⟩ := checkAll_unchecked s.industryFilter
    (fun v hv => hsafe v (List.mem_append_right _ hv))
  have hurl : (cleared (updateURLParams s)).url = (updateURLParams s).url := rfl
  have hcf : (cleared (updateURLParams s)).countryFilter =
      s.countryFilter.map fun cb => { cb with checked := false } := rfl
  have hif : (cleared (updateURLParams s)).industryFilter =
      s.industryFilter.map fun cb => { cb with checked := false } := rfl
  have hsi : (cleared (updateURLParams s)).searchInput = [] := rfl
  unfold setFiltersFromURL
  rw [hurl, hcf, hif, hsi, paramsGetAll_country, paramsGetAll_industry, paramsGet_search, hgc, hgi]
  refine ⟨_, rfl, hmc, hmi, ?_⟩
  by_cases ht : (trim s.searchInput).isEmpty = true
  · simp only [ht, Bool.not_true, Bool.false_eq_true, if_false]
    exact (List.isEmpty_iff.mp ht).symm
  · simp only [ht, Bool.not_false, if_true]

/-- Witness of `url_round_trip` on the page with UK and USA checked and the
search box holding `foo` after a space. -/
theorem url_round_trip_witness :
    (∀ v ∈ getCheckedValues sharedViewState.countryFilter ++
        getCheckedValues sharedViewState.industryFilter, cssStringSafe v = true) ∧
    ∃ t, setFiltersFromURL (cleared (updateURLParams sharedViewState)) = some t ∧
      (∀ v, v ∈ getCheckedValues t.countryFilter ↔
        v ∈ getCheckedValues sharedViewState.countryFilter) ∧
      (∀ v, v ∈ getCheckedValues t.industryFilter ↔
        v ∈ getCheckedValues sharedViewState.industryFilter) ∧
      t.searchInput = trim sharedViewState.searchInput :=
  ⟨by decide, url_round_trip sharedViewState (by decide)⟩

/-- C2 as stated fails: on the page with UK and USA checked and the search box
holding `foo` after a space, the round trip restores the two countries but
gives the search term `foo` without the space. -/
theorem url_round_trip_trims_search :
    (setFiltersFromURL (cleared (updateURLParams sharedViewState))).map
        (fun t => (getCheckedValues t.countryFilter, t.searchInput)) =
      some (["UK".toList, "USA".toList], "foo".toList) ∧
    sharedViewState.searchInput = " foo".toList ∧
    "foo".toList ≠ sharedViewState.searchInput := by
  decide

/-! ### Statements about the aggregates under reordering -/

theorem totalEmployees_perm {l₁ l₂ : List Record} (h : l₁.Perm l₂) :
    totalEmployees l₁ = totalEmployees l₂ := by
  unfold totalEmployees
  haveI : RightCommutative fun (sum : Nat) (item : Record) => sum + item.numberOfEmployees :=
    ⟨fun a b c => by omega⟩
  exact h.foldl_eq 0

theorem renderStats_perm (tl : Str → Str) {l₁ l₂ : List Record} (h : l₁.Perm l₂) :
    renderStats tl l₁ = renderStats tl l₂ := by
  unfold renderStats
  rw [length_deduplicateDataByName, length_deduplicateDataByName, totalEmployees_perm h]
  unfold uniqueCountries uniqueIndustries
  rw [length_newSet, length_newSet, length_newSet, length_newSet,
    List.toFinset_eq_of_perm _ _ (h.map (nameKey tl)),
    List.toFinset_eq_of_perm _ _ ((h.map fun item => normalizeField tl item.country).filter truthy),
    List.toFinset_eq_of_perm _ _ ((h.map fun item => normalizeField tl item.industry).filter
      fun ind => truthy ind && ind != some "n/a".toList)]

theorem lookup_map_replace (obj : List (Str × Slot)) (k k' : Str) (v : Slot) :
    (obj.map fun p => if p.1 = k then (k, v) else p).lookup k' =
      if k' = k then (obj.lookup k).map (fun _ => v) else obj.lookup k' := by
  induction obj with
  | nil => simp
  | cons p obj ih =>
    obtain ⟨a, b⟩ := p
    rw [List.map_cons]
    by_cases hak : a = k
    · subst hak
      simp only [if_true, List.lookup_cons]
      by_cases hk : k' = a
      · subst hk
        simp
      · have hb : (k' == a) = false := by simpa using hk
        simp only [hb, hk, if_false]
        rw [ih, if_neg hk]
    · simp only [hak, if_false, List.lookup_cons]
      by_cases hk : k' = a
      · subst hk
        have hne : ¬ k' = k := hak
        simp [hne]
      · have hb : (k' == a) = false := by simpa using hk
        simp only [hb]
        rw [ih]
        by_cases hkk : k' = k
        · subst hkk
          simp [hb]
        · simp [hkk]

theorem lookup_setProperty (obj : List (Str × Slot)) (k k' : Str) (v : Slot)
    (hk : k ≠ "__proto__".toList) :
    (setProperty obj k v).lookup k' = if k' = k then some v else obj.lookup k' := by
  unfold setProperty
  rw [if_neg hk]
  split
  · rename_i hsome
    rw [lookup_map_replace]
    obtain ⟨w, hw⟩ := Option.isSome_iff_exists.mp hsome
    split
    · rw [hw]
      rfl
    · rfl
  · rename_i hnone
    have hnone' : obj.lookup k = none := by
      cases h : obj.lookup k with
      | none => rfl
      | some w => rw [h] at hnone; exact absurd rfl hnone
    rw [List.lookup_append]
    by_cases hkk : k' = k
    · subst hkk
      simp [hnone', List.lookup_cons]
    · have hb : (k' == k) = false := by simpa using hkk
      simp [hkk, hb, List.lookup_cons]

theorem getProperty_setProperty (obj : List (Str × Slot)) (k k' : Str) (v : Slot)
    (hk : k ≠ "__proto__".toList) :
    getProperty (setProperty obj k v) k' = if k' = k then some v else getProperty obj k' := by
  unfold getProperty
  rw [lookup_setProperty obj k k' v hk]
  by_cases h : k' = k
  · simp only [h, if_true]
  · simp only [h, if_false]

theorem employeesPerIndustry_snoc (l : List Record) (r : Record) :
    employeesPerIndustry (l ++ [r]) =
      setProperty (employeesPerIndustry l) (interpolate r.industry)
        (orZeroPlus (getProperty (employeesPerIndustry l) (interpolate r.industry))
          r.numberOfEmployees) := by
  unfold employeesPerIndustry
  rw [List.foldl_append]
  rfl

theorem industryTotal_snoc (key : Str) (l : List Record) (r : Record) :
    industryTotal key (l ++ [r]) =
      industryTotal key l + (if interpolate r.industry = key then r.numberOfEmployees else 0) := by
  unfold industryTotal
  rw [List.filter_append, List.map_append, List.sum_append]
  congr 1
  by_cases h : interpolate r.industry = key <;> simp [List.filter_cons, h]

theorem industryTotal_of_not_mem (key : Str) (l : List Record)
    (h : key ∉ l.map fun r => interpolate r.industry) : industryTotal key l = 0 := by
  unfold industryTotal
  have : (l.filter fun r => interpolate r.industry = key) = [] := by
    rw [List.filter_eq_nil_iff]
    intro r hr hkey
    exact h (List.mem_map.mpr ⟨r, hr, of_decide_eq_true hkey⟩)
  rw [this]
  rfl

/-- When no industry names a property inherited from `Object.prototype`, each
bucket of `employeesPerIndustry` is the number `industryTotal`. -/
theorem getProperty_employeesPerIndustry (l : List Record)
    (hown : ∀ r ∈ l, objectPrototype.lookup (interpolate r.industry) = none) (key : Str) :
    getProperty (employeesPerIndustry l) key =
      if key ∈ l.map (fun r => interpolate r.industry) then some (.number (industryTotal key l))
      else (objectPrototype.lookup key).map Slot.object := by
  induction l using List.reverseRecOn generalizing key with
  | nil => rfl
  | append_singleton l r ih =>
    have hl : ∀ q ∈ l, objectPrototype.lookup (interpolate q.industry) = none :=
      fun q hq => hown q (List.mem_append_left _ hq)
    have hr : objectPrototype.lookup (interpolate r.industry) = none :=
      hown r (List.mem_append_right _ (List.mem_singleton_self r))
    have hproto : interpolate r.industry ≠ "__proto__".toList := by
      intro h
      rw [h] at hr
      exact absurd hr (by decide)
    have hnew : orZeroPlus (getProperty (employeesPerIndustry l) (interpolate r.industry))
        r.numberOfEmployees =
        .number (industryTotal (interpolate r.industry) l + r.numberOfEmployees) := by
      rw [ih hl]
      split
      · simp only [orZeroPlus]
        split
        · rename_i h0
          rw [h0]
        · rfl
      · rename_i hnot
        rw [hr, industryTotal_of_not_mem _ _ hnot]
        rfl
    rw [employeesPerIndustry_snoc, getProperty_setProperty _ _ _ _ hproto, hnew,
      industryTotal_snoc, List.map_append, List.map_singleton]
    by_cases hk : key = interpolate r.industry
    · subst hk
      simp
    · have hk' : ¬ interpolate r.industry = key := fun h => hk h.symm
      rw [if_neg hk, ih hl]
      simp [hk, hk']

theorem industryTotal_perm (key : Str) {l₁ l₂ : List Record} (h : l₁.Perm l₂) :
    industryTotal key l₁ = industryTotal key l₂ :=
  ((h.filter _).map _).sum_eq

/-- The order of the records does not affect a bucket of
`employeesPerIndustry`, as long as no industry names a property inherited from
`Object.prototype`. -/
theorem employeesPerIndustry_perm {l₁ l₂ : List Record} (h : l₁.Perm l₂)
    (hown : ∀ r ∈ l₁, objectPrototype.lookup (interpolate r.industry) = none) (key : Str) :
    getProperty (employeesPerIndustry l₁) key = getProperty (employeesPerIndustry l₂) key := by
  rw [getProperty_employeesPerIndustry l₁ hown,
    getProperty_employeesPerIndustry l₂ (fun r hr => hown r (h.mem_iff.mpr hr)),
    industryTotal_perm key h]
  have hmem : key ∈ l₁.map (fun r => interpolate r.industry) ↔
      key ∈ l₂.map (fun r => interpolate r.industry) :=
    (h.map _).mem_iff
  simp only [hmem]

/-- C6 at its failing input: two records of the industry `constructor`, with 1
and 2 employees.  The key is inherited from `Object.prototype`, so the first
read finds the function `Object` instead of `undefined` and `+` concatenates:
the bucket ends as the function text followed by `12` in one order and by `21`
in the other, although the two sequences are permutations of one another. -/
theorem employeesPerIndustry_order_dependent :
    [constructorOne, constructorTwo].Perm [constructorTwo, constructorOne] ∧
    getProperty (employeesPerIndustry [constructorOne, constructorTwo]) "constructor".toList =
      some (.string "function Object() \x7b [native code] \x7d12".toList) ∧
    getProperty (employeesPerIndustry [constructorTwo, constructorOne]) "constructor".toList =
      some (.string "function Object() \x7b [native code] \x7d21".toList) :=
  ⟨List.Perm.swap _ _ _, by decide, by decide⟩

end Dashboard
